import Mathlib

/-!
Verification development for the diff-approve subsystem of the repository.

The definitions below are shallow embeddings of the TypeScript sources:

* `computeDiffParts` / `computeDiff` embed `DiffFile.computeDiff`
  (src/integrations/diff-approve/DiffApproveProvider.ts, lines 282-369), the
  block builder that folds the parts produced by the external `diff.diffLines`
  library into context/addition/deletion/change blocks.
* `panelComputeDiff` embeds `DiffApprovePanel._computeDiff`
  (src/integrations/diff-approve/diffApprovePanel.ts, lines 145-271), the
  windowed line-matching diff used by the approval panel.
* `handleApproval`, `handleDenyAll`, `handleApproveAll` embed
  `DiffApprovePanel._handleApproval` / `_handleDenyAll` / `_handleApproveAll`.
* `findRelatedBlocks` embeds `DiffApproveProvider.findRelatedBlocks` of the
  full provider variant; `findRelatedBlocksStub` embeds the placeholder
  `DiffFile.findRelatedBlocks` in DiffApproveProvider.ts, lines 263-275.
* `stepSession` / `runSession` embed the message/dispose handlers installed by
  `DiffFile.show`, including the `hasCalledAllBlocksProcessed` guard and the
  static `approvedFiles` bookkeeping of `DiffApproveProvider`.

JavaScript strings are Lean `String`s; `String.split("\x7bn")`-style line
splitting is embedded by `splitNl`, which agrees with the JavaScript
semantics (`"".split` gives one empty piece, a trailing newline yields a final
empty piece).  `Array.prototype.splice` is embedded by `spliceList`.
-/

/-- Block kinds, from the `DiffBlock.type` union in DiffApproveProvider.ts. -/
inductive BlockType where
  | context
  | addition
  | deletion
  | change
deriving DecidableEq, Repr

/-- `DiffBlock` from DiffApproveProvider.ts / types.ts. -/
structure DiffBlock where
  id : Nat
  type : BlockType
  oldLines : List String
  newLines : List String
  oldStart : Nat
  newStart : Nat
deriving DecidableEq, Repr

/-- Splitting of a character list at newline characters; every occurrence of
a newline separates two (possibly empty) pieces, exactly as the JavaScript
`split("\x7bn")` does on the underlying character sequence. -/
def splitNlL : List Char → List (List Char)
  | [] => [[]]
  | c :: cs =>
    if c = '\n' then [] :: splitNlL cs
    else
      match splitNlL cs with
      | [] => [[c]]
      | l :: ls => (c :: l) :: ls

/-- JavaScript `s.split("\x7bn")` on a Lean string. -/
def splitNl (s : String) : List String :=
  (splitNlL s.data).map String.mk

/-- JavaScript `lines.join("\x7bn")`. -/
def joinNl (ls : List String) : String :=
  String.intercalate "\n" ls

/-- JavaScript `s.endsWith("\x7bn")`. -/
def endsNl (s : String) : Bool :=
  s.data.getLast? = some '\n'

/-- The line filter applied by `DiffFile.computeDiff` to every diff part:
`part.value.split("\x7bn").filter((line) => line.length > 0 ||
part.value.endsWith("\x7bn"))`. -/
def partLines (v : String) : List String :=
  (splitNl v).filter (fun line => decide (0 < line.length) || endsNl v)

section Sanity
example : splitNl "a\nb" = ["a", "b"] := by decide
example : splitNl "a\nb\n" = ["a", "b", ""] := by decide
example : splitNl "" = [""] := by decide
example : endsNl "a\n" = true := by decide
example : partLines "a\nb\n" = ["a", "b", ""] := by decide
example : partLines "a\n\nb" = ["a", "b"] := by decide
end Sanity

/-- Kind of a part of the underlying line diff (`added` / `removed` flags of a
jsdiff change object, with neither flag meaning an unchanged part). -/
inductive PartKind where
  | added
  | removed
  | unchanged
deriving DecidableEq, Repr

/-- One part of the underlying line diff: the `\x7b added, removed, value,
count \x7d` shape produced by `diff.diffLines`.  `count` is the number of
lines covered by the part, as used by the running line counters in
`DiffFile.computeDiff`. -/
structure DiffPart where
  kind : PartKind
  value : String
  count : Nat
deriving DecidableEq, Repr

/-- Modelled from the spec: the external `diff.diffLines` library (not part of
this repository) tokenizes each text into its lines, each line retaining its
trailing newline (a final line without a trailing newline is kept as is, and
an empty text has no lines).  `tokensOf` produces that token list. -/
def tokensOf (s : String) : List String :=
  let ps := splitNlL s.data
  (ps.dropLast.map (fun l => String.mk (l ++ ['\n']))) ++
    (match ps.getLast? with
     | none => []
     | some l => if l = [] then [] else [String.mk l])

/-- Longest-common-subsequence length of two token lists, with explicit fuel
so that the definition is structurally recursive and kernel-evaluable. -/
def lcsLen : Nat → List String → List String → Nat
  | 0, _, _ => 0
  | _ + 1, [], _ => 0
  | _ + 1, _, [] => 0
  | fuel + 1, a :: as, b :: bs =>
    if a = b then lcsLen fuel as bs + 1
    else max (lcsLen fuel as (b :: bs)) (lcsLen fuel (a :: as) bs)

/-- Modelled from the spec: step 1 of the DiffEngine algorithm, a
"line-granularity longest-common-subsequence-style diff" over the token
lists, emitting one operation per token.  Ties are resolved by emitting
removals before additions, the convention of classic line diffs and of
`diff.diffLines`. -/
def tokDiff : Nat → List String → List String → List (PartKind × String)
  | 0, _, _ => []
  | _ + 1, [], [] => []
  | fuel + 1, [], b :: bs => (PartKind.added, b) :: tokDiff fuel [] bs
  | fuel + 1, a :: as, [] => (PartKind.removed, a) :: tokDiff fuel as []
  | fuel + 1, a :: as, b :: bs =>
    if a = b then (PartKind.unchanged, a) :: tokDiff fuel as bs
    else if lcsLen (as.length + bs.length + 1) as (b :: bs) ≥
             lcsLen (as.length + bs.length + 1) (a :: as) bs then
      (PartKind.removed, a) :: tokDiff fuel as (b :: bs)
    else
      (PartKind.added, b) :: tokDiff fuel (a :: as) bs

/-- Modelled from the spec: merging of consecutive equal-kind token
operations into single parts, accumulating the concatenated text in `value`
and the number of merged lines in `count`. -/
def mergeParts : List (PartKind × String) → List DiffPart
  | [] => []
  | (k, v) :: rest =>
    match mergeParts rest with
    | [] => [⟨k, v, 1⟩]
    | p :: ps =>
      if p.kind = k then ⟨k, v ++ p.value, p.count + 1⟩ :: ps
      else ⟨k, v, 1⟩ :: p :: ps

/-- Modelled from the spec: `diff.diffLines(content1, content2)`, the external
line-diff entry point consumed by `DiffFile.computeDiff`. -/
def diffLines (a b : String) : List DiffPart :=
  let ta := tokensOf a
  let tb := tokensOf b
  mergeParts (tokDiff (ta.length + tb.length + 1) ta tb)

section Sanity2
example : tokensOf "a\nb\n" = ["a\n", "b\n"] := by decide
example : tokensOf "a\nb" = ["a\n", "b"] := by decide
example : tokensOf "" = [] := by decide
example : diffLines "a\nb\nc\n" "a\nx\nc\n" =
    [⟨PartKind.unchanged, "a\n", 1⟩, ⟨PartKind.removed, "b\n", 1⟩,
     ⟨PartKind.added, "x\n", 1⟩, ⟨PartKind.unchanged, "c\n", 1⟩] := by decide
example : diffLines "a\n" "a\nx\n" =
    [⟨PartKind.unchanged, "a\n", 1⟩, ⟨PartKind.added, "x\n", 1⟩] := by decide
end Sanity2

/-- Accumulator of the fold in `DiffFile.computeDiff`: already-emitted blocks
(most recent first), the next block id, the running 1-based line counters,
the pending (not yet pushed) block and `lastChangeLineNumber` (an `Int`, as
it is initialized to `-1`). -/
structure DiffAcc where
  blocksRev : List DiffBlock
  blockId : Nat
  oldLine : Nat
  newLine : Nat
  pending : Option DiffBlock
  lastChange : Int
deriving Repr

instance : Inhabited DiffBlock :=
  ⟨⟨0, BlockType.context, [], [], 0, 0⟩⟩

/-- The tail of the added/removed branch of the loop body in
`DiffFile.computeDiff`: append the filtered lines of the part to the proper
side of the (new or merged) pending block `pb` and advance the line
counters and `lastChangeLineNumber`. -/
def pushLines (acc : DiffAcc) (part : DiffPart) (blocksRev : List DiffBlock)
    (blockId : Nat) (pb : DiffBlock) : DiffAcc :=
  if part.kind = PartKind.added then
    { blocksRev := blocksRev
      blockId := blockId
      oldLine := acc.oldLine
      newLine := acc.newLine + part.count
      pending := some { pb with newLines := pb.newLines ++ partLines part.value }
      lastChange := ((acc.newLine + part.count : Nat) : Int) - 1 }
  else
    { blocksRev := blocksRev
      blockId := blockId
      oldLine := acc.oldLine + part.count
      newLine := acc.newLine
      pending := some { pb with oldLines := pb.oldLines ++ partLines part.value }
      lastChange := ((acc.oldLine + part.count : Nat) : Int) - 1 }

/-- The freshly created pending block of `DiffFile.computeDiff` (`id:
blockId++`, kind according to the part, both line lists empty, starts at the
current line counters). -/
def newPending (acc : DiffAcc) (part : DiffPart) : DiffBlock :=
  ⟨acc.blockId,
   if part.kind = PartKind.added then BlockType.addition else BlockType.deletion,
   [], [], acc.oldLine, acc.newLine⟩

/-- The added/removed branch of the loop body of `DiffFile.computeDiff`:
start a new pending block (flushing the previous one) when there is no
pending block, the gap since the last change exceeds one line, or the part
kind duplicates the pending block's kind; otherwise merge into the pending
block, promoting it to `change` when the part kind is complementary. -/
def changeStep (acc : DiffAcc) (part : DiffPart) : DiffAcc :=
  let cur : Nat := if part.kind = PartKind.added then acc.newLine else acc.oldLine
  match acc.pending with
  | none => pushLines acc part acc.blocksRev (acc.blockId + 1) (newPending acc part)
  | some pb =>
    if ((cur : Int) - acc.lastChange > 1) ∨
        (part.kind = PartKind.added ∧ pb.type = BlockType.addition) ∨
        (part.kind = PartKind.removed ∧ pb.type = BlockType.deletion) then
      pushLines acc part (pb :: acc.blocksRev) (acc.blockId + 1)
        (newPending acc part)
    else
      let pb1 :=
        if (part.kind = PartKind.added ∧ pb.type = BlockType.deletion) ∨
            (part.kind = PartKind.removed ∧ pb.type = BlockType.addition) then
          { pb with type := BlockType.change }
        else pb
      pushLines acc part acc.blocksRev acc.blockId pb1

/-- The unchanged branch of the loop body of `DiffFile.computeDiff`: flush
any pending block, then emit a context block for the (filtered) unchanged
lines when they are non-empty. -/
def contextStep (acc : DiffAcc) (part : DiffPart) : DiffAcc :=
  let blocksRev := match acc.pending with
    | none => acc.blocksRev
    | some pb => pb :: acc.blocksRev
  let contextLines := partLines part.value
  if 0 < contextLines.length then
    { blocksRev := ⟨acc.blockId, BlockType.context, contextLines, contextLines,
        acc.oldLine, acc.newLine⟩ :: blocksRev
      blockId := acc.blockId + 1
      oldLine := acc.oldLine + part.count
      newLine := acc.newLine + part.count
      pending := none
      lastChange := -1 }
  else
    { blocksRev := blocksRev
      blockId := acc.blockId
      oldLine := acc.oldLine + part.count
      newLine := acc.newLine + part.count
      pending := none
      lastChange := -1 }

/-- One iteration of the `for (const part of changes)` loop of
`DiffFile.computeDiff`. -/
def computeDiffStep (acc : DiffAcc) (part : DiffPart) : DiffAcc :=
  match part.kind with
  | PartKind.unchanged => contextStep acc part
  | PartKind.added => changeStep acc part
  | PartKind.removed => changeStep acc part

/-- `DiffFile.computeDiff` as a function of the underlying diff parts. -/
def computeDiffParts (parts : List DiffPart) : List DiffBlock :=
  let acc := parts.foldl computeDiffStep
    ⟨[], 0, 1, 1, none, -1⟩
  (match acc.pending with
   | none => acc.blocksRev
   | some pb => pb :: acc.blocksRev).reverse

/-- `DiffFile.computeDiff(content1, content2)` from DiffApproveProvider.ts. -/
def computeDiff (content1 content2 : String) : List DiffBlock :=
  computeDiffParts (diffLines content1 content2)

/-- The nested search loops of `DiffApprovePanel._computeDiff`: the first pair
`(searchI, searchJ)` with `i ≤ searchI < min (i+10) len1`,
`j ≤ searchJ < min (j+10) len2` and `lines1[searchI] === lines2[searchJ]`,
ordered first by `searchI` and then by `searchJ`. -/
def findMatch (l1 l2 : List String) (i j : Nat) : Option (Nat × Nat) :=
  (List.range 10).findSome? (fun di =>
    let si := i + di
    if si < l1.length then
      (List.range 10).findSome? (fun dj =>
        let sj := j + dj
        if sj < l2.length && (l1.getD si "" == l2.getD sj "") then
          some (si, sj)
        else none)
    else none)

/-- The `while` loop of `DiffApprovePanel._computeDiff`, with the produced
blocks kept most-recent-first in `revAcc` (the loop mutates the last pushed
block in the context case).  `fuel` bounds the number of iterations; the
caller passes `len1 + len2 + 1`, which dominates the loop's actual iteration
count since every iteration strictly increases `i + j`. -/
def diffLoop (l1 l2 : List String) :
    Nat → Nat → Nat → Nat → List DiffBlock → List DiffBlock
  | 0, _, _, _, revAcc => revAcc.reverse
  | fuel + 1, i, j, blockId, revAcc =>
    if i < l1.length || j < l2.length then
      if i < l1.length && j < l2.length && (l1.getD i "" == l2.getD j "") then
        -- lines match: append to the last context block, creating one if needed
        let (head, rest, blockId1) :=
          match revAcc with
          | b :: rest =>
            if b.type = BlockType.context then (b, rest, blockId)
            else (⟨blockId, BlockType.context, [], [], i + 1, j + 1⟩, b :: rest,
                  blockId + 1)
          | [] => (⟨blockId, BlockType.context, [], [], i + 1, j + 1⟩, [],
                   blockId + 1)
        diffLoop l1 l2 fuel (i + 1) (j + 1) blockId1
          ({ head with
              oldLines := head.oldLines ++ [l1.getD i ""],
              newLines := head.newLines ++ [l2.getD j ""] } :: rest)
      else
        match findMatch l1 l2 i j with
        | none =>
          if i < l1.length && j < l2.length then
            diffLoop l1 l2 fuel (i + 1) (j + 1) (blockId + 1)
              (⟨blockId, BlockType.change, [l1.getD i ""], [l2.getD j ""],
                i + 1, j + 1⟩ :: revAcc)
          else if i < l1.length then
            diffLoop l1 l2 fuel (i + 1) j (blockId + 1)
              (⟨blockId, BlockType.deletion, [l1.getD i ""], [],
                i + 1, j + 1⟩ :: revAcc)
          else
            diffLoop l1 l2 fuel i (j + 1) (blockId + 1)
              (⟨blockId, BlockType.addition, [], [l2.getD j ""],
                i + 1, j + 1⟩ :: revAcc)
        | some (nmo, nmn) =>
          let blk : DiffBlock :=
            if i < nmo && j < nmn then
              ⟨blockId, BlockType.change, (l1.drop i).take (nmo - i),
               (l2.drop j).take (nmn - j), i + 1, j + 1⟩
            else if i < nmo then
              ⟨blockId, BlockType.deletion, (l1.drop i).take (nmo - i), [],
               i + 1, j + 1⟩
            else
              ⟨blockId, BlockType.addition, [], (l2.drop j).take (nmn - j),
               i + 1, j + 1⟩
          diffLoop l1 l2 fuel nmo nmn (blockId + 1) (blk :: revAcc)
    else revAcc.reverse

/-- `DiffApprovePanel._computeDiff(content1, content2)` from
diffApprovePanel.ts. -/
def panelComputeDiff (content1 content2 : String) : List DiffBlock :=
  let l1 := splitNl content1
  let l2 := splitNl content2
  diffLoop l1 l2 (l1.length + l2.length + 1) 0 0 0 []

section Sanity3
example : panelComputeDiff "A\nB\nC" "A\nX\nC" =
    [⟨0, BlockType.context, ["A"], ["A"], 1, 1⟩,
     ⟨1, BlockType.change, ["B"], ["X"], 2, 2⟩,
     ⟨2, BlockType.context, ["C"], ["C"], 3, 3⟩] := by decide
end Sanity3

/-- JavaScript `Array.prototype.splice(start, deleteCount, ...items)` (for
non-negative `start`): the result after removing `deleteCount` elements at
`start` and inserting `items` there.  `List.take`/`List.drop` clamp exactly
as the JavaScript index arithmetic does. -/
def spliceList (l : List String) (start deleteCount : Nat)
    (items : List String) : List String :=
  l.take start ++ items ++ l.drop (start + deleteCount)

/-- `ApprovalAction` from types.ts. -/
inductive ApprovalAction where
  | approve
  | deny
deriving DecidableEq, Repr

/-- The state of a `DiffApprovePanel` relevant to the approval logic:
the content of the original (`_file1Uri`) and working (`_file2Uri`) files on
disk, the current `_diffContent.blocks`, and the `_pendingBlocks` set
(as a duplicate-free list of ids). -/
structure PanelState where
  origText : String
  fileText : String
  blocks : List DiffBlock
  pending : List Nat
deriving Repr

/-- `DiffApprovePanel._loadDiffContent`: recomputes `_diffContent` from the
current on-disk contents.  (`_pendingBlocks` is not touched here.) -/
def loadDiff (s : PanelState) : PanelState :=
  { s with blocks := panelComputeDiff s.origText s.fileText }

/-- Initial panel state right after the `getContent` message: blocks computed
from the two files, `_pendingBlocks` = ids of all non-context blocks. -/
def initPanel (origText fileText : String) : PanelState :=
  let blocks := panelComputeDiff origText fileText
  { origText := origText
    fileText := fileText
    blocks := blocks
    pending := (blocks.filter (fun b => decide (b.type ≠ BlockType.context))).map
      DiffBlock.id }

/-- `DiffApprovePanel._handleApproval(blockId, action, updateUI)` from
diffApprovePanel.ts. -/
def handleApproval (s : PanelState) (blockId : Nat) (action : ApprovalAction)
    (updateUI : Bool) : PanelState :=
  match s.blocks.find? (fun b => b.id == blockId) with
  | none => s
  | some block =>
    match action with
    | ApprovalAction.approve =>
      -- keep the change; just drop the block from the pending set
      { s with pending := s.pending.filter (fun x => x ≠ blockId) }
    | ApprovalAction.deny =>
      let lines := splitNl s.fileText
      let lines1 :=
        match block.type with
        | BlockType.addition =>
          spliceList lines (block.newStart - 1) block.newLines.length []
        | BlockType.deletion =>
          spliceList lines (block.newStart - 1) 0 block.oldLines
        | BlockType.change =>
          spliceList lines (block.newStart - 1) block.newLines.length
            block.oldLines
        | BlockType.context => lines  -- no switch case fires for context
      let s1 : PanelState :=
        { s with
            fileText := joinNl lines1
            pending := s.pending.filter (fun x => x ≠ blockId) }
      if updateUI then loadDiff s1 else s1

/-- `DiffApprovePanel._handleDenyAll` from diffApprovePanel.ts: denies every
non-context block of the current diff content (without reloading in
between), then reloads the diff and clears the pending set. -/
def handleDenyAll (s : PanelState) : PanelState :=
  let nonContext := s.blocks.filter (fun b => decide (b.type ≠ BlockType.context))
  let s1 := nonContext.foldl
    (fun st b => handleApproval st b.id ApprovalAction.deny false) s
  let s2 := loadDiff s1
  { s2 with pending := [] }

/-- `DiffApprovePanel._handleApproveAll` from diffApprovePanel.ts. -/
def handleApproveAll (s : PanelState) : PanelState :=
  { s with pending := [] }

/-- `DiffApproveProvider.findRelatedBlocks(blockId)` of the full provider
variant: locate the target block by id, then collect the contiguous run of
blocks around it, scanning backward (inclusive) and forward (exclusive) from
its index and stopping at the first `context` block on each side.  The
backward `for`/`unshift` loop collects the longest non-context suffix of
`blocks.take (ti+1)`; the forward loop collects the longest non-context
prefix of `blocks.drop (ti+1)`. -/
def findRelatedBlocks (bs : List DiffBlock) (blockId : Nat) : List DiffBlock :=
  match bs.findIdx? (fun b => b.id == blockId) with
  | none => []
  | some ti =>
    ((bs.take (ti + 1)).reverse.takeWhile
        (fun b => decide (b.type ≠ BlockType.context))).reverse ++
      (bs.drop (ti + 1)).takeWhile (fun b => decide (b.type ≠ BlockType.context))

/-- `DiffFile.findRelatedBlocks(blockId)` from DiffApproveProvider.ts, lines
263-275: the placeholder that returns a single synthetic `change` block
carrying the requested id. -/
def findRelatedBlocksStub (blockId : Nat) : List DiffBlock :=
  [⟨blockId, BlockType.change, [], [], 0, 0⟩]

/-- State of one `DiffFile` review session (DiffApproveProvider.ts):
`pendingBlocks`, the `hasCalledAllBlocksProcessed` latch, plus the
observable effects we track — the number of times `onAllBlocksProcessed` was
invoked (`signals`) and the static `DiffApproveProvider.approvedFiles` set. -/
structure FileSession where
  filePath : String
  pending : List Nat
  hasCalled : Bool
  signals : Nat
  approvedFiles : List String
deriving Repr

/-- Events a `DiffFile` reacts to: an `approve`/`deny` webview message for
one block, an `approveAll`/`denyAll` message, and the panel being disposed. -/
inductive FEvent where
  | msg (blockId : Nat) (approve : Bool)
  | bulk (approve : Bool)
  | dispose
deriving DecidableEq, Repr

/-- The completion path shared by the handlers in `DiffFile.show`: when
`pendingBlocks` is empty and the `hasCalledAllBlocksProcessed` latch is not
yet set, set it, add the file to `DiffApproveProvider.approvedFiles` and call
`onAllBlocksProcessed`. -/
def completeIfDone (s : FileSession) : FileSession :=
  if s.pending = [] then
    if s.hasCalled then s
    else
      { s with
          hasCalled := true
          approvedFiles := s.filePath :: s.approvedFiles
          signals := s.signals + 1 }
  else s

/-- One event step of `DiffFile.show`'s message handler and dispose handler.
For a single `approve`/`deny` message the related group is resolved with the
`findRelatedBlocksStub` placeholder (always exactly the requested id), each
member is removed from `pendingBlocks`, and the completion path runs if the
set became empty.  `approveAll`/`denyAll` clears `pendingBlocks` and runs
the completion path unconditionally.  A dispose with pending blocks left
does not run the completion path at all. -/
def stepSession (s : FileSession) (e : FEvent) : FileSession :=
  match e with
  | FEvent.msg blockId _ =>
    let group := findRelatedBlocksStub blockId
    if group.length > 0 then
      let s1 := { s with
        pending := group.foldl (fun p b => p.filter (fun x => x ≠ b.id)) s.pending }
      completeIfDone s1
    else s
  | FEvent.bulk _ =>
    completeIfDone { s with pending := [] }
  | FEvent.dispose =>
    if s.pending.length > 0 then s
    else completeIfDone s

/-- A `DiffFile` session as created by `DiffFile.show`: the pending set holds
the ids of all non-context blocks of the computed diff, the latch is unset. -/
def initSession (filePath : String) (pendingIds : List Nat) : FileSession :=
  { filePath := filePath
    pending := pendingIds
    hasCalled := false
    signals := 0
    approvedFiles := [] }

/-- A run of a `DiffFile` session over a sequence of events. -/
def runSession (s : FileSession) (es : List FEvent) : FileSession :=
  es.foldl stepSession s

/-- `DiffApproveProvider.isFileApproved(filePath)`. -/
def isFileApproved (s : FileSession) (filePath : String) : Bool :=
  s.approvedFiles.contains filePath

/-! ### Supporting lemmas -/

/-- The approve branch of `_handleApproval` only touches `_pendingBlocks`. -/
theorem handleApproval_approve_frame (s : PanelState) (blockId : Nat)
    (u : Bool) :
    (handleApproval s blockId ApprovalAction.approve u).origText = s.origText ∧
    (handleApproval s blockId ApprovalAction.approve u).fileText = s.fileText ∧
    (handleApproval s blockId ApprovalAction.approve u).blocks = s.blocks ∧
    (handleApproval s blockId ApprovalAction.approve u).pending =
      (if (s.blocks.find? (fun b => b.id == blockId)).isSome then
        s.pending.filter (fun x => x ≠ blockId)
      else s.pending) := by
  unfold handleApproval
  cases h : s.blocks.find? (fun b => b.id == blockId) <;> simp [h]

/-- The deny branch of `_handleApproval` reads only `_file1Uri`/`_file2Uri`
content and `_diffContent.blocks`; its resulting file content and block list
do not depend on the pending set. -/
theorem handleApproval_deny_congr (s t : PanelState) (blockId : Nat)
    (ho : s.origText = t.origText) (hf : s.fileText = t.fileText)
    (hb : s.blocks = t.blocks) :
    (handleApproval s blockId ApprovalAction.deny true).fileText =
      (handleApproval t blockId ApprovalAction.deny true).fileText ∧
    (handleApproval s blockId ApprovalAction.deny true).blocks =
      (handleApproval t blockId ApprovalAction.deny true).blocks := by
  unfold handleApproval loadDiff
  rw [hb]
  cases h : t.blocks.find? (fun b => b.id == blockId) <;>
    simp [h, ho, hf, hb]

/-! ### Claims -/

/-- C1 (counterexample): for the inputs
`a = "a\nb\nc\n"` and `b = "a\nx\nc\n"`, concatenating the blocks'
`oldLines` in emission order does not reconstruct the lines of `a` (each
part's trailing newline contributes an extra empty line), under either
reading of "the lines of `a`" (JavaScript split, or joining back to the
text), and likewise `newLines` does not reconstruct `b`. -/
theorem c1_counterexample :
    ((computeDiff "a\nb\nc\n" "a\nx\nc\n").flatMap DiffBlock.oldLines ≠
      splitNl "a\nb\nc\n") ∧
    (joinNl ((computeDiff "a\nb\nc\n" "a\nx\nc\n").flatMap DiffBlock.oldLines) ≠
      "a\nb\nc\n") ∧
    ((computeDiff "a\nb\nc\n" "a\nx\nc\n").flatMap DiffBlock.newLines ≠
      splitNl "a\nx\nc\n") := by
  decide

/-- Old-side lines accumulated so far: lines of the emitted blocks plus the
lines of the pending block. -/
def accOldLines (acc : DiffAcc) : List String :=
  acc.blocksRev.reverse.flatMap DiffBlock.oldLines ++
    (match acc.pending with
     | none => []
     | some pb => pb.oldLines)

/-- New-side lines accumulated so far. -/
def accNewLines (acc : DiffAcc) : List String :=
  acc.blocksRev.reverse.flatMap DiffBlock.newLines ++
    (match acc.pending with
     | none => []
     | some pb => pb.newLines)

theorem retype_oldLines (pb : DiffBlock) (c : Prop) [Decidable c] :
    (if c then { pb with type := BlockType.change } else pb).oldLines =
      pb.oldLines := by
  split <;> rfl

theorem retype_newLines (pb : DiffBlock) (c : Prop) [Decidable c] :
    (if c then { pb with type := BlockType.change } else pb).newLines =
      pb.newLines := by
  split <;> rfl

theorem accOldLines_pushLines (acc : DiffAcc) (part : DiffPart)
    (blocksRev : List DiffBlock) (blockId : Nat) (pb : DiffBlock) :
    accOldLines (pushLines acc part blocksRev blockId pb) =
      blocksRev.reverse.flatMap DiffBlock.oldLines ++
        (pb.oldLines ++
          (if part.kind = PartKind.added then [] else partLines part.value)) := by
  unfold pushLines accOldLines
  by_cases h : part.kind = PartKind.added <;> simp [h]

theorem accNewLines_pushLines (acc : DiffAcc) (part : DiffPart)
    (blocksRev : List DiffBlock) (blockId : Nat) (pb : DiffBlock) :
    accNewLines (pushLines acc part blocksRev blockId pb) =
      blocksRev.reverse.flatMap DiffBlock.newLines ++
        (pb.newLines ++
          (if part.kind = PartKind.added then partLines part.value else [])) := by
  unfold pushLines accNewLines
  by_cases h : part.kind = PartKind.added <;> simp [h]

theorem accOldLines_changeStep (acc : DiffAcc) (part : DiffPart) :
    accOldLines (changeStep acc part) =
      accOldLines acc ++
        (if part.kind = PartKind.added then [] else partLines part.value) := by
  unfold changeStep
  cases hp : acc.pending
  · dsimp only
    rw [accOldLines_pushLines]
    simp [accOldLines, hp, newPending]
  · next pb =>
    dsimp only
    by_cases hc :
        (((if part.kind = PartKind.added then acc.newLine
           else acc.oldLine : Nat) : Int) - acc.lastChange > 1) ∨
        (part.kind = PartKind.added ∧ pb.type = BlockType.addition) ∨
        (part.kind = PartKind.removed ∧ pb.type = BlockType.deletion)
    · rw [if_pos hc, accOldLines_pushLines]
      simp [accOldLines, hp, newPending, List.flatMap_append,
        List.append_assoc]
    · rw [if_neg hc, accOldLines_pushLines]
      simp [accOldLines, hp, retype_oldLines, List.append_assoc]

theorem accNewLines_changeStep (acc : DiffAcc) (part : DiffPart) :
    accNewLines (changeStep acc part) =
      accNewLines acc ++
        (if part.kind = PartKind.added then partLines part.value else []) := by
  unfold changeStep
  cases hp : acc.pending
  · dsimp only
    rw [accNewLines_pushLines]
    simp [accNewLines, hp, newPending]
  · next pb =>
    dsimp only
    by_cases hc :
        (((if part.kind = PartKind.added then acc.newLine
           else acc.oldLine : Nat) : Int) - acc.lastChange > 1) ∨
        (part.kind = PartKind.added ∧ pb.type = BlockType.addition) ∨
        (part.kind = PartKind.removed ∧ pb.type = BlockType.deletion)
    · rw [if_pos hc, accNewLines_pushLines]
      simp [accNewLines, hp, newPending, List.flatMap_append,
        List.append_assoc]
    · rw [if_neg hc, accNewLines_pushLines]
      simp [accNewLines, hp, retype_newLines, List.append_assoc]

theorem accOldLines_contextStep (acc : DiffAcc) (part : DiffPart) :
    accOldLines (contextStep acc part) =
      accOldLines acc ++ partLines part.value := by
  unfold contextStep
  cases hp : acc.pending <;>
    · by_cases h : 0 < (partLines part.value).length
      · rw [if_pos h]
        simp [accOldLines, hp, List.flatMap_append]
      · rw [if_neg h]
        have hnil : partLines part.value = [] :=
          List.eq_nil_of_length_eq_zero (Nat.eq_zero_of_not_pos h)
        simp [accOldLines, hp, hnil, List.flatMap_append]

theorem accNewLines_contextStep (acc : DiffAcc) (part : DiffPart) :
    accNewLines (contextStep acc part) =
      accNewLines acc ++ partLines part.value := by
  unfold contextStep
  cases hp : acc.pending <;>
    · by_cases h : 0 < (partLines part.value).length
      · rw [if_pos h]
        simp [accNewLines, hp, List.flatMap_append]
      · rw [if_neg h]
        have hnil : partLines part.value = [] :=
          List.eq_nil_of_length_eq_zero (Nat.eq_zero_of_not_pos h)
        simp [accNewLines, hp, hnil, List.flatMap_append]

theorem accOldLines_step (acc : DiffAcc) (part : DiffPart) :
    accOldLines (computeDiffStep acc part) =
      accOldLines acc ++
        (if part.kind = PartKind.added then [] else partLines part.value) := by
  cases hk : part.kind <;> simp only [computeDiffStep, hk]
  case unchanged => rw [accOldLines_contextStep]; simp [hk]
  case added => rw [accOldLines_changeStep]; simp [hk]
  case removed => rw [accOldLines_changeStep]; simp [hk]

theorem accNewLines_step (acc : DiffAcc) (part : DiffPart) :
    accNewLines (computeDiffStep acc part) =
      accNewLines acc ++
        (if part.kind = PartKind.removed then [] else partLines part.value) := by
  cases hk : part.kind <;> simp only [computeDiffStep, hk]
  case unchanged => rw [accNewLines_contextStep]; simp [hk]
  case added => rw [accNewLines_changeStep]; simp [hk]
  case removed => rw [accNewLines_changeStep]; simp [hk]

theorem accOldLines_foldl (parts : List DiffPart) (acc : DiffAcc) :
    accOldLines (parts.foldl computeDiffStep acc) =
      accOldLines acc ++
        (parts.filter (fun p => decide (p.kind ≠ PartKind.added))).flatMap
          (fun p => partLines p.value) := by
  induction parts generalizing acc with
  | nil => simp
  | cons p rest ih =>
    rw [List.foldl_cons, ih, accOldLines_step]
    by_cases h : p.kind = PartKind.added <;>
      simp [h, List.append_assoc]

theorem accNewLines_foldl (parts : List DiffPart) (acc : DiffAcc) :
    accNewLines (parts.foldl computeDiffStep acc) =
      accNewLines acc ++
        (parts.filter (fun p => decide (p.kind ≠ PartKind.removed))).flatMap
          (fun p => partLines p.value) := by
  induction parts generalizing acc with
  | nil => simp
  | cons p rest ih =>
    rw [List.foldl_cons, ih, accNewLines_step]
    by_cases h : p.kind = PartKind.removed <;>
      simp [h, List.append_assoc]

theorem computeDiffParts_oldLines (parts : List DiffPart) :
    (computeDiffParts parts).flatMap DiffBlock.oldLines =
      (parts.filter (fun p => decide (p.kind ≠ PartKind.added))).flatMap
        (fun p => partLines p.value) := by
  unfold computeDiffParts
  have h := accOldLines_foldl parts ⟨[], 0, 1, 1, none, -1⟩
  unfold accOldLines at h
  cases hp : (parts.foldl computeDiffStep ⟨[], 0, 1, 1, none, -1⟩).pending <;>
    rw [hp] at h <;>
    simp_all [List.flatMap_append]

theorem computeDiffParts_newLines (parts : List DiffPart) :
    (computeDiffParts parts).flatMap DiffBlock.newLines =
      (parts.filter (fun p => decide (p.kind ≠ PartKind.removed))).flatMap
        (fun p => partLines p.value) := by
  unfold computeDiffParts
  have h := accNewLines_foldl parts ⟨[], 0, 1, 1, none, -1⟩
  unfold accNewLines at h
  cases hp : (parts.foldl computeDiffStep ⟨[], 0, 1, 1, none, -1⟩).pending <;>
    rw [hp] at h <;>
    simp_all [List.flatMap_append]

/-- C1 (amended): concatenating the blocks' `oldLines` in emission order
reconstructs, part by part, the filtered line splits of the old-side
(removed and unchanged) parts of the underlying line diff, and the blocks'
`newLines` those of the new-side (added and unchanged) parts.  Because a
part whose text ends with a newline contributes the split's trailing empty
line, this is not, in general, the line sequence of the input text itself. -/
theorem c1_roundtrip_amended (a b : String) :
    ((computeDiff a b).flatMap DiffBlock.oldLines =
      ((diffLines a b).filter (fun p => decide (p.kind ≠ PartKind.added))).flatMap
        (fun p => partLines p.value)) ∧
    ((computeDiff a b).flatMap DiffBlock.newLines =
      ((diffLines a b).filter
          (fun p => decide (p.kind ≠ PartKind.removed))).flatMap
        (fun p => partLines p.value)) :=
  ⟨computeDiffParts_oldLines (diffLines a b),
   computeDiffParts_newLines (diffLines a b)⟩

/-- C7 (counterexample): for the inputs `"a\n"` and `"a\nx\n"`,
`computeDiff` emits blocks whose line lists end in the phantom empty line
produced by splitting a part value that ends with a newline — the claim that
such empty final lines are excluded from every emitted block is false. -/
theorem c7_counterexample :
    ¬ (∀ blk ∈ computeDiff "a\n" "a\nx\n",
        blk.newLines.getLast? ≠ some "" ∧ blk.oldLines.getLast? ≠ some "") := by
  decide

/-- C7 (amended): the filter in `DiffFile.computeDiff` keeps every line of a
part whose value ends with a newline — including the split's empty final
line — and drops empty lines only when the part's value does not end with a
newline. -/
theorem c7_phantom_line_amended (v : String) :
    (endsNl v = true → partLines v = splitNl v) ∧
    (endsNl v = false →
      partLines v = (splitNl v).filter (fun line => decide (0 < line.length))) := by
  constructor
  · intro h
    unfold partLines
    apply List.filter_eq_self.mpr
    intro a _
    simp [h]
  · intro h
    unfold partLines
    rw [h]
    simp

theorem c7_phantom_line_amended_witness :
    (endsNl "x\n" = true ∧ partLines "x\n" = splitNl "x\n") ∧
    (endsNl "x" = false ∧
      partLines "x" = (splitNl "x").filter (fun line => decide (0 < line.length))) :=
  ⟨⟨by decide, (c7_phantom_line_amended "x\n").1 (by decide)⟩,
   ⟨by decide, (c7_phantom_line_amended "x").2 (by decide)⟩⟩

/-- C2 (code bug): `_handleDenyAll` on original text `"A\nC\nE"` and
modified text `"A\nB\nC\nD\nE"` empties the pending set but does not
revert the file: the two addition blocks are denied with the positions
recorded before any splice, so the second splice removes `"E"` instead of
`"D"`, leaving `"A\nC\nD"`; recomputing the diff against the original text
then still contains a non-context block. -/
theorem c2_denyAll_not_full_reversion :
    (handleDenyAll (initPanel "A\nC\nE" "A\nB\nC\nD\nE")).pending = [] ∧
    (handleDenyAll (initPanel "A\nC\nE" "A\nB\nC\nD\nE")).fileText =
      "A\nC\nD" ∧
    (handleDenyAll (initPanel "A\nC\nE" "A\nB\nC\nD\nE")).fileText ≠
      "A\nC\nE" ∧
    (panelComputeDiff "A\nC\nE"
        (handleDenyAll (initPanel "A\nC\nE" "A\nB\nC\nD\nE")).fileText).filter
      (fun blk => decide (blk.type ≠ BlockType.context)) ≠ [] := by
  decide

/-- C8 (counterexample): with original text `"A"` and modified text `"B"`,
approving block 0 removes it from the pending set, yet a subsequent
`deny(0)` in the same pending cycle still splices and rewrites the file
(from `"B"` back to `"A"`), so the second call is neither rejected nor a
no-op. -/
theorem c8_counterexample :
    (handleApproval (initPanel "A" "B") 0 ApprovalAction.approve true).pending
      = [] ∧
    (handleApproval
        (handleApproval (initPanel "A" "B") 0 ApprovalAction.approve true)
        0 ApprovalAction.deny true).fileText ≠
      (handleApproval (initPanel "A" "B") 0
        ApprovalAction.approve true).fileText := by
  decide

/-- C8 (amended): a `deny(blockId)` issued after `approve(blockId)` in the
same pending cycle is not guarded by the pending set: it produces exactly
the same file content and recomputed block list as a deny issued without
the prior approve, because the approve branch only removes the id from
`_pendingBlocks` and the deny branch never consults that set. -/
theorem c8_deny_after_approve_amended (s : PanelState) (id1 id2 : Nat) :
    ((handleApproval (handleApproval s id1 ApprovalAction.approve true) id2
        ApprovalAction.deny true).fileText =
      (handleApproval s id2 ApprovalAction.deny true).fileText) ∧
    ((handleApproval (handleApproval s id1 ApprovalAction.approve true) id2
        ApprovalAction.deny true).blocks =
      (handleApproval s id2 ApprovalAction.deny true).blocks) := by
  obtain ⟨ho, hf, hb, -⟩ := handleApproval_approve_frame s id1 true
  exact handleApproval_deny_congr _ s id2 ho hf hb

/-- C9: the approve branch of `_handleApproval` removes the resolved block
id from the pending set (when the id names a block of the current diff
content) and changes nothing else: the original and working file contents
and the stored block list are untouched. -/
theorem c9_approve_frame (s : PanelState) (blockId : Nat) (u : Bool) :
    (handleApproval s blockId ApprovalAction.approve u).origText = s.origText ∧
    (handleApproval s blockId ApprovalAction.approve u).fileText = s.fileText ∧
    (handleApproval s blockId ApprovalAction.approve u).blocks = s.blocks ∧
    (handleApproval s blockId ApprovalAction.approve u).pending =
      (if (s.blocks.find? (fun b => b.id == blockId)).isSome then
        s.pending.filter (fun x => x ≠ blockId)
      else s.pending) :=
  handleApproval_approve_frame s blockId u

theorem completeIfDone_cases (s : FileSession) :
    completeIfDone s = s ∨
    (s.pending = [] ∧ s.hasCalled = false ∧
      completeIfDone s =
        { s with
            hasCalled := true
            approvedFiles := s.filePath :: s.approvedFiles
            signals := s.signals + 1 }) := by
  unfold completeIfDone
  by_cases h1 : s.pending = []
  · by_cases h2 : s.hasCalled = true
    · left
      rw [if_pos h1, if_pos h2]
    · right
      exact ⟨h1, by simpa using h2, by rw [if_pos h1, if_neg h2]⟩
  · left
    rw [if_neg h1]

/-- Effect summary of one `DiffFile` event step: either the completion path
did not run (all completion-related fields unchanged, and for a non-dispose
event an empty resulting pending set means the latch was already set), or it
ran exactly once (signals incremented, latch set, file recorded approved). -/
theorem stepSession_cases (s : FileSession) (e : FEvent) :
    ((stepSession s e).signals = s.signals ∧
     (stepSession s e).hasCalled = s.hasCalled ∧
     (stepSession s e).approvedFiles = s.approvedFiles ∧
     (stepSession s e).filePath = s.filePath ∧
     (e ≠ FEvent.dispose → (stepSession s e).pending = [] →
       s.hasCalled = true)) ∨
    ((stepSession s e).signals = s.signals + 1 ∧
     s.hasCalled = false ∧
     (stepSession s e).hasCalled = true ∧
     (stepSession s e).pending = [] ∧
     (stepSession s e).approvedFiles = s.filePath :: s.approvedFiles ∧
     (stepSession s e).filePath = s.filePath) := by
  cases e with
  | msg blockId approve =>
    have hstep : stepSession s (FEvent.msg blockId approve) =
        completeIfDone
          { s with pending := s.pending.filter (fun x => x ≠ blockId) } := by
      simp [stepSession, findRelatedBlocksStub]
    rcases completeIfDone_cases
        { s with pending := s.pending.filter (fun x => x ≠ blockId) } with
      h | ⟨hp, hc, h⟩
    · left
      rw [hstep, h]
      refine ⟨rfl, rfl, rfl, rfl, fun _ hpend => ?_⟩
      by_contra hcall
      have hcf : s.hasCalled = false := by
        cases hca : s.hasCalled
        · rfl
        · exact absurd hca hcall
      have := completeIfDone_cases
        { s with pending := s.pending.filter (fun x => x ≠ blockId) }
      rcases this with h2 | ⟨_, _, h2⟩
      · -- no-fire requires pending nonempty or latch set; both fail
        unfold completeIfDone at h2
        rw [if_pos hpend, hcf] at h2
        simp at h2
      · rw [h] at h2
        have := congrArg FileSession.signals h2
        simp at this
    · right
      rw [hstep, h]
      exact ⟨rfl, hc, rfl, hp, rfl, rfl⟩
  | bulk approve =>
    have hstep : stepSession s (FEvent.bulk approve) =
        completeIfDone { s with pending := [] } := by
      simp [stepSession]
    rcases completeIfDone_cases { s with pending := ([] : List Nat) } with
      h | ⟨hp, hc, h⟩
    · -- completeIfDone on an empty pending set can only skip if the latch is set
      have hpend : ({ s with pending := ([] : List Nat) }
          : FileSession).pending = [] := rfl
      unfold completeIfDone at h
      rw [if_pos hpend] at h
      by_cases hca : s.hasCalled = true
      · left
        rw [hstep]
        unfold completeIfDone
        rw [if_pos hpend, if_pos hca]
        exact ⟨rfl, rfl, rfl, rfl, fun _ _ => hca⟩
      · rw [if_neg hca] at h
        have := congrArg FileSession.signals h
        simp at this
    · right
      rw [hstep, h]
      exact ⟨rfl, hc, rfl, hp, rfl, rfl⟩
  | dispose =>
    by_cases hp : s.pending.length > 0
    · left
      have hstep : stepSession s FEvent.dispose = s := by
        simp [stepSession, if_pos hp]
      rw [hstep]
      exact ⟨rfl, rfl, rfl, rfl, fun hne _ => absurd rfl hne⟩
    · have hstep : stepSession s FEvent.dispose = completeIfDone s := by
        simp [stepSession, if_neg hp]
      rcases completeIfDone_cases s with h | ⟨hp2, hc, h⟩
      · left
        rw [hstep, h]
        exact ⟨rfl, rfl, rfl, rfl, fun hne _ => absurd rfl hne⟩
      · right
        rw [hstep, h]
        exact ⟨rfl, hc, rfl, hp2, rfl, rfl⟩

/-- Invariant of a `DiffFile` session run: the file path is fixed, the
signal count mirrors the latch, and a set latch means the file has been
recorded in `approvedFiles`. -/
def sessionInv (path : String) (s : FileSession) : Prop :=
  s.filePath = path ∧
  s.signals = (if s.hasCalled then 1 else 0) ∧
  (s.hasCalled = true → isFileApproved s path = true)

theorem sessionInv_step (path : String) (s : FileSession) (e : FEvent)
    (h : sessionInv path s) : sessionInv path (stepSession s e) := by
  obtain ⟨hpath, hsig, happ⟩ := h
  rcases stepSession_cases s e with ⟨h1, h2, h3, h4, -⟩ |
    ⟨h1, h2, h3, h4, h5, h6⟩
  · refine ⟨h4.trans hpath, ?_, ?_⟩
    · rw [h1, h2]
      exact hsig
    · intro hc
      rw [h2] at hc
      have := happ hc
      simpa [isFileApproved, h3] using this
  · refine ⟨h6.trans hpath, ?_, ?_⟩
    · rw [h1, h3, hsig, h2]
      simp
    · intro _
      simp [isFileApproved, h5, hpath]

theorem sessionInv_run (path : String) (P : List Nat) (es : List FEvent) :
    sessionInv path (runSession (initSession path P) es) := by
  have hinit : sessionInv path (initSession path P) := by
    refine ⟨rfl, rfl, ?_⟩
    intro h
    simp [initSession] at h
  have : ∀ (s : FileSession), sessionInv path s →
      sessionInv path (runSession s es) := by
    induction es with
    | nil => intro s hs; exact hs
    | cons e rest ih =>
      intro s hs
      exact ih _ (sessionInv_step path s e hs)
  exact this _ hinit

/-- C6: in any run of one `DiffFile` review session the completion signal
(`onAllBlocksProcessed`) fires at most once; a step fires it only when the
latch was still unset and the resulting pending set is empty (so a repeated
empty pending set does not re-trigger it); and a dispose of the panel while
pending blocks remain changes nothing — in particular it neither fires the
signal nor marks the file approved. -/
theorem c6_completion_once (path : String) (P : List Nat) (es : List FEvent)
    (s : FileSession) (e : FEvent) :
    (runSession (initSession path P) es).signals ≤ 1 ∧
    ((stepSession s e).signals ≠ s.signals →
      (stepSession s e).pending = [] ∧ s.hasCalled = false ∧
      (stepSession s e).signals = s.signals + 1) ∧
    (s.pending ≠ [] → stepSession s FEvent.dispose = s) := by
  refine ⟨?_, ?_, ?_⟩
  · obtain ⟨-, hsig, -⟩ := sessionInv_run path P es
    rw [hsig]
    split <;> simp
  · intro hne
    rcases stepSession_cases s e with ⟨h1, -⟩ | ⟨h1, h2, -, h4, -⟩
    · exact absurd h1 hne
    · exact ⟨h4, h2, h1⟩
  · intro hp
    have : s.pending.length > 0 := List.length_pos.mpr hp
    simp [stepSession, if_pos this]

theorem c6_completion_once_witness :
    ((runSession (initSession "f" [0]) [FEvent.msg 0 true]).signals ≤ 1) ∧
    ((stepSession ⟨"f", [1], false, 0, []⟩ (FEvent.msg 1 true)).pending = [] ∧
      (⟨"f", [1], false, 0, []⟩ : FileSession).hasCalled = false ∧
      (stepSession ⟨"f", [1], false, 0, []⟩ (FEvent.msg 1 true)).signals =
        (⟨"f", [1], false, 0, []⟩ : FileSession).signals + 1) ∧
    (stepSession ⟨"f", [1], false, 0, []⟩ FEvent.dispose =
      ⟨"f", [1], false, 0, []⟩) :=
  ⟨(c6_completion_once "f" [0] [FEvent.msg 0 true]
      ⟨"f", [1], false, 0, []⟩ FEvent.dispose).1,
   (c6_completion_once "f" [0] [] ⟨"f", [1], false, 0, []⟩
      (FEvent.msg 1 true)).2.1 (by decide),
   (c6_completion_once "f" [0] [] ⟨"f", [1], false, 0, []⟩
      FEvent.dispose).2.2 (by decide)⟩

/-- C10: whenever a session's pending set is empty after a final user action
(an approve/deny message or a bulk approveAll/denyAll — in particular a
`denyAll` that reverted every change), the file path has been added to the
static `approvedFiles` set, so `DiffApproveProvider.isFileApproved` returns
true afterwards; and once recorded, further events never remove it. -/
theorem c10_denyAll_marks_approved (path : String) (P : List Nat)
    (es : List FEvent) (e : FEvent) :
    (e ≠ FEvent.dispose →
      (runSession (initSession path P) (es ++ [e])).pending = [] →
      isFileApproved (runSession (initSession path P) (es ++ [e])) path =
        true) ∧
    (∀ (s : FileSession), isFileApproved s path = true →
      isFileApproved (stepSession s e) path = true) := by
  constructor
  · intro hne hpend
    have hrun : runSession (initSession path P) (es ++ [e]) =
        stepSession (runSession (initSession path P) es) e := by
      simp [runSession, List.foldl_append]
    obtain ⟨hpath, -, happ⟩ := sessionInv_run path P es
    rw [hrun] at hpend ⊢
    rcases stepSession_cases (runSession (initSession path P) es) e with
      ⟨-, -, h3, -, h5⟩ | ⟨-, -, -, -, h5, -⟩
    · have hcalled := h5 hne hpend
      have := happ hcalled
      simpa [isFileApproved, h3] using this
    · simp [isFileApproved, h5, hpath]
  · intro s hs
    rcases stepSession_cases s e with ⟨-, -, h3, -, -⟩ | ⟨-, -, -, -, h5, -⟩
    · simpa [isFileApproved, h3] using hs
    · have hmem : path ∈ s.approvedFiles := by
        simpa [isFileApproved] using hs
      simp [isFileApproved, h5, List.contains_cons, hmem]

theorem c10_denyAll_marks_approved_witness :
    isFileApproved
      (runSession (initSession "f" [0, 1]) ([] ++ [FEvent.bulk false])) "f" =
      true ∧
    isFileApproved
      (stepSession ⟨"f", [], true, 1, ["f"]⟩ FEvent.dispose) "f" = true :=
  ⟨(c10_denyAll_marks_approved "f" [0, 1] [] (FEvent.bulk false)).1
      (by decide) (by decide),
   (c10_denyAll_marks_approved "f" [0, 1] [] FEvent.dispose).2
      ⟨"f", [], true, 1, ["f"]⟩ (by decide)⟩

theorem mkString_ne_empty (l : List Char) (h : l ≠ []) : String.mk l ≠ "" := by
  intro he
  exact h (by simpa using congrArg String.data he)

theorem strAppend_data (a b : String) : (a ++ b).data = a.data ++ b.data := by
  cases a
  cases b
  rfl

theorem splitNlL_cons (c : Char) (cs : List Char) :
    splitNlL (c :: cs) =
      if c = '\n' then [] :: splitNlL cs
      else
        match splitNlL cs with
        | [] => [[c]]
        | l :: ls => (c :: l) :: ls := rfl

theorem splitNlL_ne_nil (cs : List Char) : splitNlL cs ≠ [] := by
  induction cs with
  | nil => simp [splitNlL]
  | cons c cs ih =>
    rw [splitNlL_cons]
    by_cases h : c = '\n'
    · rw [if_pos h]
      simp
    · rw [if_neg h]
      rcases hm : splitNlL cs with _ | ⟨l, ls⟩ <;> simp

theorem splitNlL_last_ne (cs : List Char) :
    cs ≠ [] → cs.getLast? ≠ some '\n' → ∃ l ∈ splitNlL cs, l ≠ [] := by
  induction cs with
  | nil => intro hne _; exact absurd rfl hne
  | cons c cs ih =>
    intro _ hlast
    rcases hcs : cs with _ | ⟨d, ds⟩
    · have hc : c ≠ '\n' := by
        subst hcs
        simpa using hlast
      refine ⟨[c], ?_, by simp⟩
      rw [splitNlL_cons, if_neg hc]
      simp [splitNlL]
    · subst hcs
      have hlast2 : (d :: ds).getLast? ≠ some '\n' := by
        simpa [List.getLast?_cons_cons] using hlast
      obtain ⟨l, hl, hlne⟩ := ih (by simp) hlast2
      rw [splitNlL_cons]
      by_cases hc : c = '\n'
      · rw [if_pos hc]
        exact ⟨l, List.mem_cons_of_mem _ hl, hlne⟩
      · rw [if_neg hc]
        rcases hm : splitNlL (d :: ds) with _ | ⟨l0, ls⟩
        · exact absurd hm (splitNlL_ne_nil _)
        · dsimp only
          rw [hm] at hl
          rcases List.mem_cons.mp hl with rfl | hmem
          · exact ⟨c :: l, by simp, by simp⟩
          · exact ⟨l, List.mem_cons_of_mem _ hmem, hlne⟩

theorem partLines_ne (v : String) (h : v ≠ "") : partLines v ≠ [] := by
  unfold partLines
  by_cases hE : endsNl v = true
  · have hall : ∀ line ∈ splitNl v,
        (decide (0 < line.length) || endsNl v) = true := by
      intro line _
      simp [hE]
    rw [List.filter_eq_self.mpr hall]
    unfold splitNl
    simpa using splitNlL_ne_nil v.data
  · have hdata : v.data ≠ [] := by
      obtain ⟨data⟩ := v
      intro hd
      have hd2 : data = [] := hd
      subst hd2
      exact h rfl
    have hlast : v.data.getLast? ≠ some '\n' := by
      simpa [endsNl] using hE
    obtain ⟨l, hl, hlne⟩ := splitNlL_last_ne v.data hdata hlast
    intro hnil
    have hmem : String.mk l ∈ splitNl v := List.mem_map_of_mem _ hl
    have hpred : (decide (0 < (String.mk l).length) || endsNl v) = true := by
      have hlen : 0 < l.length := List.length_pos.mpr hlne
      simp [String.length, hlen]
    have hmf : String.mk l ∈
        (splitNl v).filter (fun line => decide (0 < line.length) || endsNl v) :=
      List.mem_filter.mpr ⟨hmem, hpred⟩
    rw [hnil] at hmf
    simp at hmf

theorem tokensOf_ne (s : String) : ∀ t ∈ tokensOf s, t ≠ "" := by
  intro t ht
  unfold tokensOf at ht
  rcases List.mem_append.mp ht with h | h
  · obtain ⟨l, -, rfl⟩ := List.mem_map.mp h
    exact mkString_ne_empty _ (by simp)
  · rcases hg : (splitNlL s.data).getLast? with _ | l
    · rw [hg] at h
      simp at h
    · rw [hg] at h
      by_cases hl : l = []
      · simp [hl] at h
      · simp only [hl, if_neg, ite_false] at h
        simp only [List.mem_singleton] at h
        subst h
        exact mkString_ne_empty _ hl

theorem tokDiff_mem (fuel : Nat) :
    ∀ (as bs : List String), ∀ op ∈ tokDiff fuel as bs,
      op.2 ∈ as ∨ op.2 ∈ bs := by
  induction fuel with
  | zero =>
    intro as bs op hop
    simp [tokDiff] at hop
  | succ n ih =>
    intro as bs op hop
    cases as with
    | nil =>
      cases bs with
      | nil => simp [tokDiff] at hop
      | cons b bs2 =>
        simp only [tokDiff] at hop
        rcases List.mem_cons.mp hop with rfl | hop2
        · right; simp
        · rcases ih [] bs2 op hop2 with h | h
          · simp at h
          · right
            exact List.mem_cons_of_mem _ h
    | cons a as2 =>
      cases bs with
      | nil =>
        simp only [tokDiff] at hop
        rcases List.mem_cons.mp hop with rfl | hop2
        · left; simp
        · rcases ih as2 [] op hop2 with h | h
          · left
            exact List.mem_cons_of_mem _ h
          · simp at h
      | cons b bs2 =>
        simp only [tokDiff] at hop
        by_cases h1 : a = b
        · rw [if_pos h1] at hop
          rcases List.mem_cons.mp hop with rfl | hop2
          · left; simp
          · rcases ih as2 bs2 op hop2 with h | h
            · left
              exact List.mem_cons_of_mem _ h
            · right
              exact List.mem_cons_of_mem _ h
        · rw [if_neg h1] at hop
          by_cases h2 : lcsLen (as2.length + bs2.length + 1) as2 (b :: bs2) ≥
              lcsLen (as2.length + bs2.length + 1) (a :: as2) bs2
          · rw [if_pos h2] at hop
            rcases List.mem_cons.mp hop with rfl | hop2
            · left; simp
            · rcases ih as2 (b :: bs2) op hop2 with h | h
              · left
                exact List.mem_cons_of_mem _ h
              · right
                exact h
          · rw [if_neg h2] at hop
            rcases List.mem_cons.mp hop with rfl | hop2
            · right; simp
            · rcases ih (a :: as2) bs2 op hop2 with h | h
              · left
                exact h
              · right
                exact List.mem_cons_of_mem _ h

theorem mergeParts_value_ne (ops : List (PartKind × String))
    (h : ∀ op ∈ ops, op.2 ≠ "") : ∀ p ∈ mergeParts ops, p.value ≠ "" := by
  induction ops with
  | nil =>
    intro p hp
    simp [mergeParts] at hp
  | cons op rest ih =>
    obtain ⟨k, v⟩ := op
    intro p hp
    have hv : v ≠ "" := h (k, v) (by simp)
    have hrest : ∀ o ∈ rest, o.2 ≠ "" := fun o ho =>
      h o (List.mem_cons_of_mem _ ho)
    simp only [mergeParts] at hp
    rcases hm : mergeParts rest with _ | ⟨q, qs⟩
    · rw [hm] at hp
      simp only [List.mem_singleton] at hp
      subst hp
      exact hv
    · rw [hm] at hp
      dsimp only at hp
      by_cases hk : q.kind = k
      · rw [if_pos hk] at hp
        rcases List.mem_cons.mp hp with rfl | hmem
        · intro he
          apply hv
          have hd : (v ++ q.value).data = [] := by
            simpa using congrArg String.data he
          rw [strAppend_data] at hd
          have hvd : v.data = [] := (List.append_eq_nil.mp hd).1
          obtain ⟨data⟩ := v
          have hd2 : data = [] := hvd
          subst hd2
          rfl
        · exact ih hrest p (by rw [hm]; exact List.mem_cons_of_mem _ hmem)
      · rw [if_neg hk] at hp
        rcases List.mem_cons.mp hp with rfl | hmem
        · exact hv
        · exact ih hrest p (by rw [hm]; exact hmem)

theorem diffLines_value_ne (a b : String) :
    ∀ p ∈ diffLines a b, p.value ≠ "" := by
  intro p hp
  unfold diffLines at hp
  refine mergeParts_value_ne _ ?_ p hp
  intro op hop
  rcases tokDiff_mem _ _ _ op hop with h | h
  · exact tokensOf_ne a op.2 h
  · exact tokensOf_ne b op.2 h

/-- The kind invariant of a `DiffBlock` stated by the spec: context blocks
repeat the same lines on both sides, additions have no old lines, deletions
no new lines, and change blocks both sides non-empty. -/
def blockInv (b : DiffBlock) : Prop :=
  match b.type with
  | BlockType.context => b.oldLines = b.newLines
  | BlockType.addition => b.oldLines = []
  | BlockType.deletion => b.newLines = []
  | BlockType.change => b.oldLines ≠ [] ∧ b.newLines ≠ []

instance blockInv.instDecidable (b : DiffBlock) : Decidable (blockInv b) := by
  unfold blockInv
  cases b.type <;> infer_instance

/-- Invariant of the pending (not yet emitted) block in
`DiffFile.computeDiff`: as `blockInv`, but the populated side of an
addition/deletion is known non-empty, and a pending block is never a
context block. -/
def pendingInv (b : DiffBlock) : Prop :=
  match b.type with
  | BlockType.context => False
  | BlockType.addition => b.oldLines = [] ∧ b.newLines ≠ []
  | BlockType.deletion => b.newLines = [] ∧ b.oldLines ≠ []
  | BlockType.change => b.oldLines ≠ [] ∧ b.newLines ≠ []

theorem pendingInv_blockInv (b : DiffBlock) (h : pendingInv b) :
    blockInv b := by
  unfold pendingInv at h
  unfold blockInv
  cases hb : b.type <;> rw [hb] at h
  · exact h.elim
  · exact h.1
  · exact h.1
  · exact h

/-- Invariant carried through the fold of `DiffFile.computeDiff`. -/
def accInv (acc : DiffAcc) : Prop :=
  (∀ b ∈ acc.blocksRev, blockInv b) ∧
  (∀ pb, acc.pending = some pb → pendingInv pb)

theorem pushLines_fields (acc : DiffAcc) (part : DiffPart)
    (blocksRev : List DiffBlock) (blockId : Nat) (pb : DiffBlock) :
    (pushLines acc part blocksRev blockId pb).blocksRev = blocksRev ∧
    (pushLines acc part blocksRev blockId pb).pending =
      some (if part.kind = PartKind.added then
        { pb with newLines := pb.newLines ++ partLines part.value }
      else { pb with oldLines := pb.oldLines ++ partLines part.value }) := by
  unfold pushLines
  by_cases h : part.kind = PartKind.added <;> simp [h]

theorem accInv_pushLines (acc : DiffAcc) (part : DiffPart)
    (blocksRev : List DiffBlock) (blockId : Nat) (pb : DiffBlock)
    (hbs : ∀ b ∈ blocksRev, blockInv b)
    (hpb : pendingInv (if part.kind = PartKind.added then
        { pb with newLines := pb.newLines ++ partLines part.value }
      else { pb with oldLines := pb.oldLines ++ partLines part.value })) :
    accInv (pushLines acc part blocksRev blockId pb) := by
  obtain ⟨h1, h2⟩ := pushLines_fields acc part blocksRev blockId pb
  constructor
  · rw [h1]
    exact hbs
  · intro q hq
    rw [h2] at hq
    injection hq with hq2
    exact hq2 ▸ hpb

theorem accInv_changeStep (acc : DiffAcc) (part : DiffPart)
    (hk : part.kind = PartKind.added ∨ part.kind = PartKind.removed)
    (hl : partLines part.value ≠ []) (h : accInv acc) :
    accInv (changeStep acc part) := by
  obtain ⟨hb, hp⟩ := h
  unfold changeStep
  cases hpd : acc.pending
  · dsimp only
    apply accInv_pushLines _ _ _ _ _ hb
    rcases hk with hk | hk <;>
      simp [hk, newPending, pendingInv, hl]
  · next pb0 =>
    have hpb0 := hp pb0 hpd
    dsimp only
    by_cases hc :
        (((if part.kind = PartKind.added then acc.newLine
           else acc.oldLine : Nat) : Int) - acc.lastChange > 1) ∨
        (part.kind = PartKind.added ∧ pb0.type = BlockType.addition) ∨
        (part.kind = PartKind.removed ∧ pb0.type = BlockType.deletion)
    · rw [if_pos hc]
      apply accInv_pushLines
      · intro b hb2
        rcases List.mem_cons.mp hb2 with rfl | h2
        · exact pendingInv_blockInv _ hpb0
        · exact hb b h2
      · rcases hk with hk | hk <;>
          simp [hk, newPending, pendingInv, hl]
    · rw [if_neg hc]
      apply accInv_pushLines _ _ _ _ _ hb
      push_neg at hc
      obtain ⟨-, hc2, hc3⟩ := hc
      unfold pendingInv at hpb0
      have hoapp : pb0.oldLines ++ partLines part.value ≠ [] := fun hx =>
        hl (List.append_eq_nil.mp hx).2
      have hnapp : pb0.newLines ++ partLines part.value ≠ [] := fun hx =>
        hl (List.append_eq_nil.mp hx).2
      rcases hk with hk | hk
      · -- added part merging into a pending deletion or change block
        rcases hty : pb0.type with _ | _ | _ | _
        · rw [hty] at hpb0
          exact hpb0.elim
        · exact absurd hty (hc2 hk)
        · rw [hty] at hpb0
          simp [hk, pendingInv, hpb0.1, hpb0.2, hl]
        · rw [hty] at hpb0
          simp [hk, hty, pendingInv, hpb0.1, hpb0.2, hnapp]
      · -- removed part merging into a pending addition or change block
        rcases hty : pb0.type with _ | _ | _ | _
        · rw [hty] at hpb0
          exact hpb0.elim
        · rw [hty] at hpb0
          simp [hk, pendingInv, hpb0.1, hpb0.2, hl]
        · exact absurd hty (hc3 hk)
        · rw [hty] at hpb0
          simp [hk, hty, pendingInv, hpb0.1, hpb0.2, hoapp]

theorem accInv_contextStep (acc : DiffAcc) (part : DiffPart)
    (h : accInv acc) : accInv (contextStep acc part) := by
  obtain ⟨hb, hp⟩ := h
  unfold contextStep
  have hflush : ∀ b ∈ (match acc.pending with
      | none => acc.blocksRev
      | some pb => pb :: acc.blocksRev), blockInv b := by
    cases hpd : acc.pending
    · exact hb
    · next pb0 =>
      intro b hb2
      rcases List.mem_cons.mp hb2 with rfl | h2
      · exact pendingInv_blockInv _ (hp b hpd)
      · exact hb b h2
  by_cases hc : 0 < (partLines part.value).length
  · rw [if_pos hc]
    constructor
    · intro b hb2
      rcases List.mem_cons.mp hb2 with rfl | h2
      · simp [blockInv]
      · exact hflush b h2
    · intro pb hpb
      simp at hpb
  · rw [if_neg hc]
    exact ⟨hflush, by intro pb hpb; simp at hpb⟩

theorem accInv_step (acc : DiffAcc) (part : DiffPart)
    (hl : partLines part.value ≠ []) (h : accInv acc) :
    accInv (computeDiffStep acc part) := by
  cases hk : part.kind
  · simpa only [computeDiffStep, hk] using
      accInv_changeStep acc part (Or.inl hk) hl h
  · simpa only [computeDiffStep, hk] using
      accInv_changeStep acc part (Or.inr hk) hl h
  · simpa only [computeDiffStep, hk] using accInv_contextStep acc part h

theorem computeDiffParts_inv (parts : List DiffPart)
    (hv : ∀ p ∈ parts, partLines p.value ≠ []) :
    ∀ b ∈ computeDiffParts parts, blockInv b := by
  have hfold : ∀ (ps : List DiffPart) (acc : DiffAcc),
      (∀ p ∈ ps, partLines p.value ≠ []) → accInv acc →
      accInv (ps.foldl computeDiffStep acc) := by
    intro ps
    induction ps with
    | nil => intro acc _ h; exact h
    | cons p rest ih =>
      intro acc hps h
      rw [List.foldl_cons]
      exact ih _ (fun q hq => hps q (List.mem_cons_of_mem _ hq))
        (accInv_step acc p (hps p (by simp)) h)
  have hacc := hfold parts ⟨[], 0, 1, 1, none, -1⟩ hv
    ⟨by simp, by intro pb hpb; simp at hpb⟩
  intro b hb
  unfold computeDiffParts at hb
  dsimp only at hb
  obtain ⟨h1, h2⟩ := hacc
  rcases hpd : (parts.foldl computeDiffStep ⟨[], 0, 1, 1, none, -1⟩).pending with
    _ | pb
  · rw [hpd] at hb
    dsimp only at hb
    exact h1 b (List.mem_reverse.mp hb)
  · rw [hpd] at hb
    dsimp only at hb
    rcases List.mem_cons.mp (List.mem_reverse.mp hb) with rfl | h3
    · exact pendingInv_blockInv _ (h2 b hpd)
    · exact h1 b h3

theorem findMatch_bounds (l1 l2 : List String) (i j nmo nmn : Nat)
    (h : findMatch l1 l2 i j = some (nmo, nmn)) :
    i ≤ nmo ∧ nmo < l1.length ∧ j ≤ nmn ∧ nmn < l2.length := by
  unfold findMatch at h
  obtain ⟨di, -, hinner⟩ := List.exists_of_findSome?_eq_some h
  by_cases hsi : i + di < l1.length
  · rw [if_pos hsi] at hinner
    obtain ⟨dj, -, hcond⟩ := List.exists_of_findSome?_eq_some hinner
    by_cases hcj : (decide (j + dj < l2.length) &&
        (l1.getD (i + di) "" == l2.getD (j + dj) "")) = true
    · rw [if_pos hcj] at hcond
      injection hcond with hpair
      have h1 : i + di = nmo := congrArg Prod.fst hpair
      have h2 : j + dj = nmn := congrArg Prod.snd hpair
      subst h1
      subst h2
      have hj2 : j + dj < l2.length := by
        have := (Bool.and_eq_true _ _).mp hcj
        exact of_decide_eq_true this.1
      exact ⟨Nat.le_add_right i di, hsi, Nat.le_add_right j dj, hj2⟩
    · rw [if_neg hcj] at hcond
      cases hcond
  · rw [if_neg hsi] at hinner
    cases hinner

theorem diffLoop_inv (l1 l2 : List String) (fuel : Nat) :
    ∀ (i j blockId : Nat) (revAcc : List DiffBlock),
      (∀ b ∈ revAcc, blockInv b) →
      ∀ b ∈ diffLoop l1 l2 fuel i j blockId revAcc, blockInv b := by
  induction fuel with
  | zero =>
    intro i j blockId revAcc hacc b hb
    simp only [diffLoop] at hb
    exact hacc b (List.mem_reverse.mp hb)
  | succ n ih =>
    intro i j blockId revAcc hacc b hb
    simp only [diffLoop] at hb
    by_cases h1 : (decide (i < l1.length) || decide (j < l2.length)) = true
    · rw [if_pos h1] at hb
      by_cases h2 : (decide (i < l1.length) && decide (j < l2.length) &&
          (l1.getD i "" == l2.getD j "")) = true
      · rw [if_pos h2] at hb
        have heq : l1.getD i "" = l2.getD j "" := by
          have := (Bool.and_eq_true _ _).mp h2
          exact eq_of_beq this.2
        -- the context branch modifies or creates the head context block
        rcases hacc2 : revAcc with _ | ⟨hd, rest⟩
        · rw [hacc2] at hb
          dsimp only at hb
          refine ih _ _ _ _ ?_ b hb
          intro b2 hb2
          rcases List.mem_cons.mp hb2 with rfl | h3
          · unfold blockInv
            dsimp only
            rw [heq]
          · simp at h3
        · rw [hacc2] at hb
          dsimp only at hb
          by_cases hhd : hd.type = BlockType.context
          · rw [if_pos hhd] at hb
            dsimp only at hb
            refine ih _ _ _ _ ?_ b hb
            intro b2 hb2
            rcases List.mem_cons.mp hb2 with rfl | h3
            · have hinv := hacc hd (by rw [hacc2]; simp)
              unfold blockInv at hinv ⊢
              simp only [hhd] at hinv ⊢
              rw [hinv, heq]
            · exact hacc b2 (by rw [hacc2]; exact List.mem_cons_of_mem _ h3)
          · rw [if_neg hhd] at hb
            dsimp only at hb
            refine ih _ _ _ _ ?_ b hb
            intro b2 hb2
            rcases List.mem_cons.mp hb2 with rfl | h3
            · unfold blockInv
              dsimp only
              rw [heq]
            · exact hacc b2 (by rw [hacc2]; exact h3)
      · rw [if_neg h2] at hb
        rcases hfm : findMatch l1 l2 i j with _ | ⟨nmo, nmn⟩
        · rw [hfm] at hb
          dsimp only at hb
          by_cases h3 : (decide (i < l1.length) && decide (j < l2.length)) = true
          · rw [if_pos h3] at hb
            refine ih _ _ _ _ ?_ b hb
            intro b2 hb2
            rcases List.mem_cons.mp hb2 with rfl | h4
            · simp [blockInv]
            · exact hacc b2 h4
          · rw [if_neg h3] at hb
            by_cases h4 : i < l1.length
            · rw [if_pos h4] at hb
              refine ih _ _ _ _ ?_ b hb
              intro b2 hb2
              rcases List.mem_cons.mp hb2 with rfl | h5
              · simp [blockInv]
              · exact hacc b2 h5
            · rw [if_neg h4] at hb
              refine ih _ _ _ _ ?_ b hb
              intro b2 hb2
              rcases List.mem_cons.mp hb2 with rfl | h5
              · simp [blockInv]
              · exact hacc b2 h5
        · rw [hfm] at hb
          dsimp only at hb
          obtain ⟨hio, hol, hjn, hnl⟩ := findMatch_bounds l1 l2 i j nmo nmn hfm
          refine ih _ _ _ _ ?_ b hb
          intro b2 hb2
          rcases List.mem_cons.mp hb2 with rfl | h5
          · by_cases h6 : (decide (i < nmo) && decide (j < nmn)) = true
            · rw [if_pos h6]
              have h6a : i < nmo := of_decide_eq_true
                ((Bool.and_eq_true _ _).mp h6).1
              have h6b : j < nmn := of_decide_eq_true
                ((Bool.and_eq_true _ _).mp h6).2
              unfold blockInv
              simp only
              constructor
              · intro hx
                rw [List.take_eq_nil_iff] at hx
                rcases hx with hx | hx
                · omega
                · rw [List.drop_eq_nil_iff] at hx
                  omega
              · intro hx
                rw [List.take_eq_nil_iff] at hx
                rcases hx with hx | hx
                · omega
                · rw [List.drop_eq_nil_iff] at hx
                  omega
            · rw [if_neg h6]
              by_cases h7 : i < nmo
              · rw [if_pos h7]
                simp [blockInv]
              · rw [if_neg h7]
                simp [blockInv]
          · exact hacc b2 h5
    · rw [if_neg h1] at hb
      exact hacc b (List.mem_reverse.mp hb)

/-- C5: every block produced by a diff computation satisfies the kind
invariant — a context block has `oldLines = newLines`, an addition block has
empty `oldLines`, a deletion block has empty `newLines`, and a change block
has both sides non-empty; this holds both for `DiffFile.computeDiff` and for
`DiffApprovePanel._computeDiff`. -/
theorem c5_block_invariant (a b : String) :
    (∀ blk ∈ computeDiff a b, blockInv blk) ∧
    (∀ blk ∈ panelComputeDiff a b, blockInv blk) := by
  constructor
  · apply computeDiffParts_inv
    intro p hp
    exact partLines_ne _ (diffLines_value_ne a b p hp)
  · intro blk hblk
    exact diffLoop_inv _ _ _ 0 0 0 [] (by simp) blk hblk

theorem c5_block_invariant_witness :
    blockInv ⟨0, BlockType.context, ["a", ""], ["a", ""], 1, 1⟩ ∧
    blockInv ⟨1, BlockType.change, ["B"], ["X"], 2, 2⟩ :=
  ⟨(c5_block_invariant "a\n" "a\nx\n").1 _ (by decide),
   (c5_block_invariant "A\nB\nC" "A\nX\nC").2 _ (by decide)⟩

theorem take_seg_drop (l seg : List String) (pos len : Nat)
    (hseg : (l.drop pos).take len = seg) :
    l = l.take pos ++ seg ++ l.drop (pos + len) := by
  have h2 : l.drop pos = seg ++ l.drop (pos + len) := by
    conv_lhs => rw [← List.take_append_drop len (l.drop pos)]
    rw [hseg, List.drop_drop]
  conv_lhs => rw [← List.take_append_drop pos l]
  rw [h2]
  simp [List.append_assoc]

/-- C3: the deny branch of `_handleApproval` reverts a block by splicing the
current file lines at the block's recorded new-side position
(`newStart - 1`): for an addition the block's `newLines` are removed, for a
deletion the recorded `oldLines` are re-inserted at that position, and for a
change the current lines at that position are replaced by the recorded
`oldLines`; the file written to disk is exactly the joined splice result,
and the block id leaves the pending set. -/
theorem c3_deny_splice (s : PanelState) (b : DiffBlock)
    (hfind : s.blocks.find? (fun x => x.id == b.id) = some b)
    (hseg : ((splitNl s.fileText).drop (b.newStart - 1)).take
      b.newLines.length = b.newLines) :
    ((handleApproval s b.id ApprovalAction.deny true).pending =
      s.pending.filter (fun x => x ≠ b.id)) ∧
    (b.type = BlockType.addition →
      (handleApproval s b.id ApprovalAction.deny true).fileText =
        joinNl ((splitNl s.fileText).take (b.newStart - 1) ++
          (splitNl s.fileText).drop (b.newStart - 1 + b.newLines.length)) ∧
      splitNl s.fileText =
        (splitNl s.fileText).take (b.newStart - 1) ++ b.newLines ++
          (splitNl s.fileText).drop (b.newStart - 1 + b.newLines.length)) ∧
    (b.type = BlockType.deletion →
      (handleApproval s b.id ApprovalAction.deny true).fileText =
        joinNl ((splitNl s.fileText).take (b.newStart - 1) ++ b.oldLines ++
          (splitNl s.fileText).drop (b.newStart - 1))) ∧
    (b.type = BlockType.change →
      (handleApproval s b.id ApprovalAction.deny true).fileText =
        joinNl ((splitNl s.fileText).take (b.newStart - 1) ++ b.oldLines ++
          (splitNl s.fileText).drop (b.newStart - 1 + b.newLines.length)) ∧
      splitNl s.fileText =
        (splitNl s.fileText).take (b.newStart - 1) ++ b.newLines ++
          (splitNl s.fileText).drop (b.newStart - 1 + b.newLines.length)) := by
  unfold handleApproval
  rw [hfind]
  dsimp only
  refine ⟨?_, ?_, ?_, ?_⟩
  · simp [loadDiff]
  · intro hty
    rw [hty]
    constructor
    · simp [loadDiff, spliceList]
    · exact take_seg_drop _ _ _ _ hseg
  · intro hty
    rw [hty]
    simp [loadDiff, spliceList]
  · intro hty
    rw [hty]
    constructor
    · simp [loadDiff, spliceList]
    · exact take_seg_drop _ _ _ _ hseg

theorem c3_deny_splice_witness :
    ((initPanel "A" "B").blocks.find? (fun x => x.id == (0 : Nat)) =
      some ⟨0, BlockType.change, ["A"], ["B"], 1, 1⟩) ∧
    (handleApproval (initPanel "A" "B") 0 ApprovalAction.deny true).fileText =
      joinNl ((splitNl (initPanel "A" "B").fileText).take 0 ++ ["A"] ++
        (splitNl (initPanel "A" "B").fileText).drop (0 + 1)) :=
  ⟨by decide,
   ((c3_deny_splice (initPanel "A" "B")
      ⟨0, BlockType.change, ["A"], ["B"], 1, 1⟩
      (by decide) (by decide)).2.2.2 rfl).1⟩

theorem findIdx_ids_aux (bs : List DiffBlock) :
    ∀ (start t : Nat),
      (∀ i b, bs.get? i = some b → b.id = start + i) →
      start ≤ t → t < start + bs.length →
      List.findIdx? (fun b => b.id == t) bs start = some t := by
  induction bs with
  | nil =>
    intro start t _ h1 h2
    simp at h2
    omega
  | cons hd tl ih =>
    intro start t hids h1 h2
    rw [List.findIdx?_cons]
    have hhd : hd.id = start := by simpa using hids 0 hd rfl
    by_cases he : start = t
    · subst he
      simp [hhd]
    · have hp : (hd.id == t) = false := by
        simp [hhd]
        omega
      rw [hp]
      simp only [Bool.false_eq_true, if_false]
      apply ih (start + 1) t
      · intro i b hig
        have := hids (i + 1) b hig
        omega
      · omega
      · simp at h2
        omega

theorem findIdx_ids (bs : List DiffBlock) (t : Nat)
    (hids : ∀ i b, bs.get? i = some b → b.id = i) (ht : t < bs.length) :
    bs.findIdx? (fun b => b.id == t) = some t := by
  apply findIdx_ids_aux bs 0 t
  · intro i b h
    rw [hids i b h]
    omega
  · omega
  · omega

theorem takeWhile_eq_take_of {α : Type} (p : α → Bool) :
    ∀ (l : List α) (n : Nat), n ≤ l.length →
      (∀ k, k < n → ∀ a, l.get? k = some a → p a = true) →
      (∀ a, l.get? n = some a → p a = false) →
      l.takeWhile p = l.take n := by
  intro l
  induction l with
  | nil =>
    intro n _ _ _
    simp
  | cons x xs ih =>
    intro n hn hall hstop
    cases n with
    | zero =>
      have hx : p x = false := hstop x rfl
      simp [List.takeWhile_cons, hx]
    | succ m =>
      have hx : p x = true := hall 0 (Nat.succ_pos m) x rfl
      simp only [List.takeWhile_cons, hx, if_true, List.take_succ_cons]
      congr 1
      apply ih m (by simpa using hn)
      · intro k hk a ha
        exact hall (k + 1) (Nat.succ_lt_succ hk) a ha
      · intro a ha
        exact hstop a ha

theorem takeWhile_get_true {α : Type} (p : α → Bool) (l : List α) :
    ∀ q, q < (l.takeWhile p).length → ∀ a, l.get? q = some a →
      p a = true := by
  intro q hq a ha
  have hpre : l.takeWhile p = l.take (l.takeWhile p).length :=
    List.prefix_iff_eq_take.mp (List.takeWhile_prefix p)
  have hget : (l.take (l.takeWhile p).length).get? q = l.get? q :=
    List.get?_take hq
  rw [← hpre] at hget
  have hmem : a ∈ l.takeWhile p := by
    rw [ha] at hget
    exact List.get?_mem hget
  exact List.mem_takeWhile_imp hmem

theorem takeWhile_get_stop {α : Type} (p : α → Bool) :
    ∀ (l : List α) (a : α), l.get? (l.takeWhile p).length = some a →
      p a = false := by
  intro l
  induction l with
  | nil =>
    intro a ha
    simp at ha
  | cons x xs ih =>
    intro a ha
    by_cases hx : p x = true
    · rw [List.takeWhile_cons, hx] at ha
      simp only [if_true, List.length_cons] at ha
      exact ih a ha
    · have hx2 : p x = false := Bool.eq_false_iff.mpr hx
      rw [List.takeWhile_cons, hx2] at ha
      simp only [Bool.false_eq_true, if_false, List.length_nil] at ha
      injection ha with ha2
      rw [← ha2]
      exact hx2

/-- Shared shape of both related-block scans: when `[lo, hi]` is a run of
non-context blocks delimited by context blocks (or the ends of the list),
`findRelatedBlocks` started from any position `w` inside the run returns
exactly the slice `[lo, hi]`. -/
theorem findRelated_eq_slice (bs : List DiffBlock) (lo hi w : Nat)
    (hids : ∀ i b, bs.get? i = some b → b.id = i)
    (hlow : lo ≤ w) (hwhi : w ≤ hi) (hhi : hi < bs.length)
    (hall : ∀ k, lo ≤ k → k ≤ hi → ∀ b, bs.get? k = some b →
      b.type ≠ BlockType.context)
    (hloB : lo = 0 ∨ ∀ b, bs.get? (lo - 1) = some b →
      b.type = BlockType.context)
    (hhiB : hi + 1 = bs.length ∨ ∀ b, bs.get? (hi + 1) = some b →
      b.type = BlockType.context) :
    findRelatedBlocks bs w = (bs.drop lo).take (hi + 1 - lo) := by
  have hw : w < bs.length := lt_of_le_of_lt hwhi hhi
  have hfind : bs.findIdx? (fun b => b.id == w) = some w :=
    findIdx_ids bs w hids hw
  unfold findRelatedBlocks
  rw [hfind]
  dsimp only
  have htklen : (bs.take (w + 1)).length = w + 1 := by
    rw [List.length_take]
    omega
  have hrget : ∀ q, q ≤ w →
      (bs.take (w + 1)).reverse.get? q = bs.get? (w - q) := by
    intro q hq
    rw [List.get?_reverse (by rw [htklen]; omega : q < (bs.take (w + 1)).length)]
    rw [htklen]
    have hq2 : w + 1 - 1 - q = w - q := by omega
    rw [hq2]
    exact List.get?_take (by omega)
  have hback : (bs.take (w + 1)).reverse.takeWhile
        (fun b => decide (b.type ≠ BlockType.context)) =
      (bs.take (w + 1)).reverse.take (w + 1 - lo) := by
    apply takeWhile_eq_take_of
    · rw [List.length_reverse, htklen]
      omega
    · intro q hq a ha
      rw [hrget q (by omega)] at ha
      exact decide_eq_true (hall (w - q) (by omega) (by omega) a ha)
    · intro a ha
      by_cases hlo0 : lo = 0
      · have hnone : (bs.take (w + 1)).reverse.get? (w + 1 - lo) = none := by
          rw [List.get?_eq_none, List.length_reverse, htklen]
          omega
        rw [hnone] at ha
        cases ha
      · have hctx : ∀ b, bs.get? (lo - 1) = some b →
            b.type = BlockType.context := by
          rcases hloB with h0 | hc
          · exact absurd h0 hlo0
          · exact hc
        rw [hrget _ (by omega)] at ha
        have hidx : w - (w + 1 - lo) = lo - 1 := by omega
        rw [hidx] at ha
        simp [hctx a ha]
  have hfwd : (bs.drop (w + 1)).takeWhile
        (fun b => decide (b.type ≠ BlockType.context)) =
      (bs.drop (w + 1)).take (hi - w) := by
    apply takeWhile_eq_take_of
    · rw [List.length_drop]
      omega
    · intro q hq a ha
      rw [List.get?_drop] at ha
      exact decide_eq_true (hall (w + 1 + q) (by omega) (by omega) a ha)
    · intro a ha
      rw [List.get?_drop] at ha
      have hidx : w + 1 + (hi - w) = hi + 1 := by omega
      rw [hidx] at ha
      rcases hhiB with hlen | hctx
      · rw [List.get?_eq_none.mpr (by omega)] at ha
        cases ha
      · simp [hctx a ha]
  rw [hback, hfwd]
  have hbrev : ((bs.take (w + 1)).reverse.take (w + 1 - lo)).reverse =
      (bs.drop lo).take (w + 1 - lo) := by
    rw [List.reverse_take, List.reverse_reverse, List.length_reverse, htklen]
    have hidx : w + 1 - (w + 1 - lo) = lo := by omega
    rw [hidx, List.drop_take]
  rw [hbrev]
  have hsum : hi + 1 - lo = (w + 1 - lo) + (hi - w) := by omega
  rw [hsum, List.take_add, List.drop_drop,
    show lo + (w + 1 - lo) = w + 1 by omega]

/-- The contiguous-run characterization claimed for `relatedBlocks`:
`grp` is the slice `[lo, hi]` of the block sequence, all of its blocks are
non-context, it contains position `t`, and on each side it is delimited by
a context block or the sequence boundary. -/
def relatedRunSpec (bs : List DiffBlock) (t : Nat)
    (grp : List DiffBlock) : Prop :=
  ∃ lo hi : Nat, lo ≤ t ∧ t ≤ hi ∧ hi < bs.length ∧
    grp = (bs.drop lo).take (hi + 1 - lo) ∧
    (∀ k, lo ≤ k → k ≤ hi → ∀ b, bs.get? k = some b →
      b.type ≠ BlockType.context) ∧
    (lo = 0 ∨ ∀ b, bs.get? (lo - 1) = some b →
      b.type = BlockType.context) ∧
    (hi + 1 = bs.length ∨ ∀ b, bs.get? (hi + 1) = some b →
      b.type = BlockType.context)

/-- C4 (amended): for a block sequence whose ids equal positions (as both
diff computations produce) and a non-context position `t`, the full
provider variant `DiffApproveProvider.findRelatedBlocks` returns exactly
the contiguous run of non-context blocks around `t`, and it returns the
same group when called with the id of any member of that run. -/
theorem c4_related_run (bs : List DiffBlock) (t : Nat)
    (hids : ∀ i b, bs.get? i = some b → b.id = i)
    (ht : t < bs.length)
    (hnc : ∀ b, bs.get? t = some b → b.type ≠ BlockType.context) :
    relatedRunSpec bs t (findRelatedBlocks bs t) ∧
    ∀ b ∈ findRelatedBlocks bs t,
      findRelatedBlocks bs b.id = findRelatedBlocks bs t := by
  have htklen : (bs.take (t + 1)).length = t + 1 := by
    rw [List.length_take]
    omega
  have hrget : ∀ q, q ≤ t →
      (bs.take (t + 1)).reverse.get? q = bs.get? (t - q) := by
    intro q hq
    rw [List.get?_reverse (by rw [htklen]; omega : q < (bs.take (t + 1)).length)]
    rw [htklen]
    rw [show t + 1 - 1 - q = t - q by omega]
    exact List.get?_take (by omega)
  set k := ((bs.take (t + 1)).reverse.takeWhile
    (fun b => decide (b.type ≠ BlockType.context))).length with hkdef
  set m := ((bs.drop (t + 1)).takeWhile
    (fun b => decide (b.type ≠ BlockType.context))).length with hmdef
  have hkle : k ≤ t + 1 := by
    have := List.IsPrefix.length_le
      (List.takeWhile_prefix (l := (bs.take (t + 1)).reverse)
        (fun b => decide (b.type ≠ BlockType.context)))
    rw [List.length_reverse, htklen] at this
    exact this
  have hmle : m ≤ bs.length - (t + 1) := by
    have := List.IsPrefix.length_le
      (List.takeWhile_prefix (l := bs.drop (t + 1))
        (fun b => decide (b.type ≠ BlockType.context)))
    rw [List.length_drop] at this
    exact this
  obtain ⟨bt, hbt⟩ : ∃ b, bs.get? t = some b :=
    ⟨bs.get ⟨t, ht⟩, List.get?_eq_some.mpr ⟨ht, rfl⟩⟩
  have hk1 : 1 ≤ k := by
    by_contra hk0
    have hk0 : k = 0 := by omega
    have hstop := takeWhile_get_stop
      (fun b => decide (b.type ≠ BlockType.context))
      (bs.take (t + 1)).reverse bt
    rw [← hkdef, hk0] at hstop
    have hget0 : (bs.take (t + 1)).reverse.get? 0 = some bt := by
      rw [hrget 0 (by omega)]
      simpa using hbt
    have := hstop hget0
    exact hnc bt hbt (of_decide_eq_false this |> not_ne_iff.mp)
  have hall : ∀ kk, t + 1 - k ≤ kk → kk ≤ t + m →
      ∀ b, bs.get? kk = some b → b.type ≠ BlockType.context := by
    intro kk h1 h2 b hb
    by_cases hkk : kk ≤ t
    · have hq : t - kk < k := by omega
      have := takeWhile_get_true
        (fun b => decide (b.type ≠ BlockType.context))
        (bs.take (t + 1)).reverse (t - kk) (by rw [← hkdef]; exact hq) b
      rw [hrget (t - kk) (by omega),
        show t - (t - kk) = kk by omega] at this
      exact of_decide_eq_true (this hb)
    · have hq : kk - (t + 1) < m := by omega
      have := takeWhile_get_true
        (fun b => decide (b.type ≠ BlockType.context))
        (bs.drop (t + 1)) (kk - (t + 1)) (by rw [← hmdef]; exact hq) b
      rw [List.get?_drop, show t + 1 + (kk - (t + 1)) = kk by omega] at this
      exact of_decide_eq_true (this hb)
  have hloB : t + 1 - k = 0 ∨ ∀ b, bs.get? (t + 1 - k - 1) = some b →
      b.type = BlockType.context := by
    by_cases hke : k = t + 1
    · left
      omega
    · right
      intro b hb
      have hstop := takeWhile_get_stop
        (fun b => decide (b.type ≠ BlockType.context))
        (bs.take (t + 1)).reverse b
      rw [← hkdef] at hstop
      rw [show t + 1 - k - 1 = t - k by omega] at hb
      have hget : (bs.take (t + 1)).reverse.get? k = some b := by
        rw [hrget k (by omega)]
        exact hb
      exact not_ne_iff.mp (of_decide_eq_false (hstop hget))
  have hhiB : t + m + 1 = bs.length ∨ ∀ b, bs.get? (t + m + 1) = some b →
      b.type = BlockType.context := by
    by_cases hme : m = bs.length - (t + 1)
    · left
      omega
    · right
      intro b hb
      have hstop := takeWhile_get_stop
        (fun b => decide (b.type ≠ BlockType.context))
        (bs.drop (t + 1)) b
      rw [← hmdef] at hstop
      have hget : (bs.drop (t + 1)).get? m = some b := by
        rw [List.get?_drop, show t + 1 + m = t + m + 1 by omega]
        exact hb
      exact not_ne_iff.mp (of_decide_eq_false (hstop hget))
  have hhilt : t + m < bs.length := by omega
  have hslice := findRelated_eq_slice bs (t + 1 - k) (t + m) t hids
    (by omega) (by omega) hhilt hall hloB hhiB
  constructor
  · exact ⟨t + 1 - k, t + m, by omega, by omega, hhilt, hslice, hall,
      hloB, hhiB⟩
  · intro b hmem
    rw [hslice] at hmem
    obtain ⟨n, hn⟩ := List.mem_iff_get?.mp hmem
    obtain ⟨hnlen, -⟩ := List.get?_eq_some.mp hn
    have hns : n < t + m + 1 - (t + 1 - k) :=
      lt_of_lt_of_le hnlen
        (by rw [List.length_take]; exact min_le_left _ _)
    rw [List.get?_take hns, List.get?_drop] at hn
    have hbid : b.id = t + 1 - k + n := hids _ _ hn
    have hslice2 := findRelated_eq_slice bs (t + 1 - k) (t + m)
      (t + 1 - k + n) hids (by omega) (by omega) hhilt hall hloB hhiB
    rw [hbid, hslice2, hslice]

/-- Executable check that a block sequence assigns ids equal to positions,
used to discharge that hypothesis on concrete diff outputs. -/
def idsAreIndices (bs : List DiffBlock) : Bool :=
  (List.range bs.length).all (fun i => (bs.getD i default).id == i)

theorem idsAreIndices_spec (bs : List DiffBlock)
    (h : idsAreIndices bs = true) :
    ∀ i b, bs.get? i = some b → b.id = i := by
  intro i b hib
  obtain ⟨hlen, hget⟩ := List.get?_eq_some.mp hib
  have hall := List.all_eq_true.mp h i (List.mem_range.mpr hlen)
  rw [List.getD_eq_get _ _ hlen, hget] at hall
  exact beq_iff_eq.mp hall

theorem c4_related_run_witness :
    relatedRunSpec (panelComputeDiff "A\nB\nC" "A\nX\nC") 1
      (findRelatedBlocks (panelComputeDiff "A\nB\nC" "A\nX\nC") 1) ∧
    findRelatedBlocks (panelComputeDiff "A\nB\nC" "A\nX\nC")
        (⟨1, BlockType.change, ["B"], ["X"], 2, 2⟩ : DiffBlock).id =
      findRelatedBlocks (panelComputeDiff "A\nB\nC" "A\nX\nC") 1 := by
  have hids := idsAreIndices_spec (panelComputeDiff "A\nB\nC" "A\nX\nC")
    (by decide)
  have hnc : ∀ b, (panelComputeDiff "A\nB\nC" "A\nX\nC").get? 1 = some b →
      b.type ≠ BlockType.context := by
    intro b h
    rw [show (panelComputeDiff "A\nB\nC" "A\nX\nC").get? 1 =
        some ⟨1, BlockType.change, ["B"], ["X"], 2, 2⟩ by decide] at h
    injection h with h2
    subst h2
    decide
  exact ⟨(c4_related_run _ 1 hids (by decide) hnc).1,
    (c4_related_run _ 1 hids (by decide) hnc).2 _ (by decide)⟩

/-- C4 (counterexample): the placeholder `DiffFile.findRelatedBlocks` does
not return the contiguous run of non-context blocks: for the diff of
`"A\nB\nC"` against `"A\nX\nC"` and block id 1, the run is the single real
change block (`oldLines = ["B"]`, `newLines = ["X"]`), but the placeholder
returns a synthetic block with empty line lists and zeroed positions. -/
theorem c4_counterexample :
    ¬ relatedRunSpec (panelComputeDiff "A\nB\nC" "A\nX\nC") 1
      (findRelatedBlocksStub 1) := by
  rintro ⟨lo, hi, hlo, hhi, hlen, hgrp, hall, -, -⟩
  have hbs : panelComputeDiff "A\nB\nC" "A\nX\nC" =
      [⟨0, BlockType.context, ["A"], ["A"], 1, 1⟩,
       ⟨1, BlockType.change, ["B"], ["X"], 2, 2⟩,
       ⟨2, BlockType.context, ["C"], ["C"], 3, 3⟩] := by decide
  rw [hbs] at hlen hgrp hall
  have hlo1 : lo = 1 := by
    rcases Nat.lt_or_ge lo 1 with h | h
    · exfalso
      have h0 : lo = 0 := by omega
      subst h0
      exact hall 0 (by omega) (by omega) _ rfl rfl
    · omega
  have hhi1 : hi = 1 := by
    simp only [List.length_cons, List.length_nil] at hlen
    rcases Nat.lt_or_ge hi 2 with h | h
    · omega
    · exfalso
      have h2 : hi = 2 := by omega
      subst h2
      exact hall 2 (by omega) (by omega) _ rfl rfl
  subst hlo1
  subst hhi1
  exact absurd hgrp (by decide)

